import Mathlib

/-!
# Verification of the tm-vov-dashboard reconciliation and upsert pipeline

Shallow embedding of the core pipeline of the repository:

* retry wrappers of the protocol clients
  (`src/services/felix_client.py`, `src/services/hypurrfi_client.py`,
  `src/services/hyperbeat_client.py`),
* the packed reserve-configuration decoder (`HypurrFiClient._parse_configuration`),
* timestamp conversion (`_timestamp_to_datetime_utc` in
  `src/pipelines/flows/evm_pools.py`),
* max-drawdown computation (`_calculate_max_drawdown` in
  `src/pipelines/flows/upsert_vaults.py`),
* row builders, identifier-keyed merge and persistence counting of the EVM
  pools flow (`src/pipelines/flows/evm_pools.py`),
* conflict-update semantics of the entity upserts
  (`upsert_vault_rows`, `persist_evm_pools`),
* the Top-500 materializer (`update_top_500` in
  `src/pipelines/flows/upsert_vaults.py`),
* the batch vault-details fetcher
  (`HyperliquidClient.fetch_vault_details_batch` in `src/services/hyperliquid.py`).

Python floats/Decimals are modelled as rationals, datetimes as rational
seconds since the epoch, and dictionaries with optional keys as structures of
`Option` fields (`none` = key absent / `None`).
-/

namespace TmVov

/-! ## Python truthiness helpers -/

/-- Python truthiness of an optional string value: `None` and `""` are falsy. -/
def strTruthy : Option String → Bool
  | Option.none => false
  | some s => s ≠ ""

/-- Python `a or b` on optional string values: `a` if truthy, else `b`. -/
def pyOrStr (a b : Option String) : Option String :=
  if strTruthy a then a else b

/-! ## Retry wrappers (`_call_with_retry` in felix / hypurrfi / hyperbeat clients)

One invocation of `contract_func.call()` either returns a value or raises an
exception; the wrapper only inspects whether the lowered error text contains a
rate-limit marker (`"rate limited"` or `"-32005"`), so an exception is modelled
by that one bit. -/

/-- Outcome of one `contract_func.call()` invocation: a value, or an
exception identified by `msg` whose lowered text does (`rateLimited = true`)
or does not contain a rate-limit marker. -/
inductive CallOutcome where
  | ok (v : ℕ)
  | exn (rateLimited : Bool) (msg : ℕ)
deriving DecidableEq, Repr

/-- How a `_call_with_retry` run terminates: return a value, re-raise the
non-rate-limit error `msg` (`raise e`), or raise
`Exception("Failed after max retries")`. -/
inductive RetryOutcome where
  | success (v : ℕ)
  | reraised (msg : ℕ)
  | exhausted
deriving DecidableEq, Repr

/-- Trace of one `_call_with_retry` run: the outcome, how many times the
wrapped call was invoked, and the sleep durations performed (in order). -/
structure RetryTrace where
  outcome : RetryOutcome
  calls : ℕ
  sleeps : List ℕ
deriving DecidableEq, Repr

/-- The retry loop `for attempt in range(max_retries): try: return call()
except: if rate-limited: sleep(delayOf attempt) else: raise`, starting at
attempt index `a` with `fuel` iterations left.  `delayOf a` is the delay slept
after a rate-limited failure of attempt `a`. -/
def retryFrom (call : ℕ → CallOutcome) (delayOf : ℕ → ℕ) : ℕ → ℕ → RetryTrace
  | 0, _ => ⟨.exhausted, 0, []⟩
  | fuel + 1, a =>
    match call a with
    | .ok v => ⟨.success v, 1, []⟩
    | .exn true _ =>
      let t := retryFrom call delayOf fuel (a + 1)
      ⟨t.outcome, t.calls + 1, delayOf a :: t.sleeps⟩
    | .exn false m => ⟨.reraised m, 1, []⟩

/-- `FelixClient._call_with_retry(contract_func, max_retries=5, initial_delay=2)`:
linear backoff `delay = initial_delay * (attempt + 1)`. -/
def felix_call_with_retry (call : ℕ → CallOutcome) (max_retries initial_delay : ℕ) :
    RetryTrace :=
  retryFrom call (fun attempt => initial_delay * (attempt + 1)) max_retries 0

/-- `HypurrFiClient._call_with_retry(contract_func, max_retries=5)`:
exponential backoff `delay = 2 ** (attempt + 1)`. -/
def hypurrfi_call_with_retry (call : ℕ → CallOutcome) (max_retries : ℕ) : RetryTrace :=
  retryFrom call (fun attempt => 2 ^ (attempt + 1)) max_retries 0

/-- `HyperbeatClient._call_with_retry(contract_func, max_retries=5)`:
exponential backoff `delay = 2 ** (attempt + 1)`. -/
def hyperbeat_call_with_retry (call : ℕ → CallOutcome) (max_retries : ℕ) : RetryTrace :=
  retryFrom call (fun attempt => 2 ^ (attempt + 1)) max_retries 0

/-! ## `HypurrFiClient._parse_configuration` -/

/-- Decode the packed Aave-style reserve configuration word:
`ltv = (conf_data & 0xFFFF) / 100.0`,
`liq_threshold = ((conf_data >> 16) & 0xFFFF) / 100.0`,
`liq_bonus = ((conf_data >> 32) & 0xFFFF) / 100.0`,
`decimals = (conf_data >> 48) & 0xFF`. -/
def hypurrfi_parse_configuration (conf_data : ℕ) : ℚ × ℚ × ℚ × ℕ :=
  let ltv : ℚ := ((conf_data &&& 0xFFFF : ℕ) : ℚ) / 100
  let liq_threshold : ℚ := (((conf_data >>> 16) &&& 0xFFFF : ℕ) : ℚ) / 100
  let liq_bonus : ℚ := (((conf_data >>> 32) &&& 0xFFFF : ℕ) : ℚ) / 100
  let decimals : ℕ := (conf_data >>> 48) &&& 0xFF
  (ltv, liq_threshold, liq_bonus, decimals)

/-! ## `_timestamp_to_datetime_utc` (evm_pools.py) -/

/-- Raw input to `_timestamp_to_datetime_utc`: `None`, a numeric value
(`float(value)` succeeds), or a non-numeric value (`float(value)` raises). -/
inductive TsValue where
  | noneVal
  | num (q : ℚ)
  | nonNumeric
deriving DecidableEq, Repr

/-- `_timestamp_to_datetime_utc(value)` as the produced instant in seconds
since the epoch; `now` is the current UTC time in seconds.  Every branch of the
Python function builds its result with `tz=timezone.utc`, so the result is
always a timezone-aware UTC datetime; the instant is `now` for `None` and
non-numeric inputs, and otherwise the number itself, divided by 1000 when it
exceeds `1e12` (millisecond heuristic). -/
def timestamp_to_datetime_utc (now : ℚ) : TsValue → ℚ
  | .noneVal => now
  | .nonNumeric => now
  | .num ts => if ts > 10 ^ 12 then ts / 1000 else ts

/-! ## `_calculate_max_drawdown` (upsert_vaults.py) -/

/-- One iteration of the peak/drawdown scan: update the running peak, and when
the peak is positive record the drawdown `(v - peak) / peak` if it is below
the current minimum.  State is `(peak, max_dd)` with `max_dd ≤ 0` a fraction. -/
def mddStep (st : ℚ × ℚ) (v : ℚ) : ℚ × ℚ :=
  let peak := if v > st.1 then v else st.1
  if peak > 0 then
    let dd := (v - peak) / peak
    (peak, if dd < st.2 then dd else st.2)
  else
    (peak, st.2)

/-- The scan of `_calculate_max_drawdown` over the parsed account values:
`peak = values[0]; max_dd = 0.0; for v in values: ...; return -max_dd * 100.0`,
or `None` when the list of values is empty. -/
def maxDrawdownOfValues : List ℚ → Option ℚ
  | [] => Option.none
  | v0 :: rest => some (-((v0 :: rest).foldl mddStep (v0, 0)).2 * 100)

/-- `_calculate_max_drawdown(portfolio, period_key)`: the portfolio is a list
of `[key, body]` pairs and the body's `accountValueHistory` is a list of
`[timestamp_ms, value]` points; the first pair whose key equals `period_key`
is used, its point values are collected, and the scan above is applied. -/
def calculate_max_drawdown (pf : List (String × List (ℚ × ℚ)))
    (period_key : String) : Option ℚ :=
  match pf.find? (fun pair => pair.1 == period_key) with
  | Option.none => Option.none
  | some pair => maxDrawdownOfValues (pair.2.map Prod.snd)

/-! ## Raw pool dictionaries and row builders (evm_pools.py)

A raw pool payload is a Python dict probed with `.get`; every key that the
flow reads is modelled as an `Option` field (`none` = key absent or `None`).
String-valued and numeric-valued keys are kept separate. -/

/-- The keys of a raw pool dict read by `build_evm_pool_rows`,
`build_evm_pool_metric_rows` and the merge loop of `sync_evm_pools_flow`. -/
structure PoolDict where
  pool : Option String
  pool_id : Option String
  contract_address : Option String
  address : Option String
  contractAddress : Option String
  underlyingTokens : Option (List String)
  source : Option String
  protocol : Option String
  project : Option String
  name : Option String
  poolMeta : Option String
  symbol : Option String
  accepts_usdc : Option Bool
  ltv : Option ℚ
  liquidation_threshold : Option ℚ
  liquidation_bonus : Option ℚ
  reserve_factor : Option ℚ
  decimals : Option ℚ
  timestamp : Option ℚ
  tvl_usd : Option ℚ
  tvlUsd : Option ℚ
  apy_base : Option ℚ
  apyBase : Option ℚ
  apy_reward : Option ℚ
  apyReward : Option ℚ
  apy_total : Option ℚ
  apy : Option ℚ
  total_debt_usd : Option ℚ
  utilization_rate : Option ℚ
  apy_borrow_variable : Option ℚ
  apy_borrow_stable : Option ℚ
deriving DecidableEq, Repr

/-- A `PoolDict` with every key absent. -/
def emptyPoolDict : PoolDict :=
  ⟨Option.none, Option.none, Option.none, Option.none, Option.none, Option.none,
   Option.none, Option.none, Option.none, Option.none, Option.none, Option.none,
   Option.none, Option.none, Option.none, Option.none, Option.none, Option.none,
   Option.none, Option.none, Option.none, Option.none, Option.none, Option.none,
   Option.none, Option.none, Option.none, Option.none, Option.none, Option.none,
   Option.none⟩

/-- An element of a raw pools list: the builders skip anything that is not a
dict (`if not isinstance(p, dict): continue`). -/
inductive RawItem where
  | nonDict
  | dict (p : PoolDict)
deriving DecidableEq, Repr

/-- `pool_id = p.get("pool") or p.get("pool_id")` followed by the
`if not pool_id: continue` truthiness test: `some k` exactly when the item
resolves to identifier `k`. -/
def poolIdOf (p : PoolDict) : Option String :=
  match pyOrStr p.pool p.pool_id with
  | Option.none => Option.none
  | some s => if s = "" then Option.none else some s

/-- Python `a if a is not None else b` on optional numerics (used for the
`tvl_usd`/`tvlUsd`-style fallbacks, which test `is not None`, not truthiness). -/
def orIfNone (a b : Option ℚ) : Option ℚ :=
  match a with
  | some x => some x
  | Option.none => b

/-- A row of the `evm_pools` entity table, as built by `build_evm_pool_rows`
and upserted by `persist_evm_pools`. -/
structure EvmPoolRow where
  pool_id : String
  protocol : Option String
  name : Option String
  symbol : Option String
  contract_address : Option String
  accepts_usdc : Bool
  ltv : Option ℚ
  liquidation_threshold : Option ℚ
  liquidation_bonus : Option ℚ
  reserve_factor : Option ℚ
  decimals : Option ℚ
  source : String
  created_at : ℚ
  updated_at : ℚ
deriving DecidableEq, Repr

/-- The `contract_address` fallback chain of `build_evm_pool_rows`:
`p.get("contract_address")`, else `p.get("address") or p.get("contractAddress")`,
else the first `underlyingTokens` entry when that is a non-empty list. -/
def evmPoolContractAddress (p : PoolDict) : Option String :=
  if strTruthy p.contract_address then p.contract_address
  else
    let ca := pyOrStr p.address p.contractAddress
    if !strTruthy ca then
      match p.underlyingTokens with
      | some (t :: _) => some t
      | _ => ca
    else ca

/-- `source = p.get("source"); if not source: source = "defillama"`. -/
def evmPoolSource (p : PoolDict) : String :=
  match p.source with
  | some s => if s = "" then "defillama" else s
  | Option.none => "defillama"

/-- The entity row built for one raw pool dict that has a resolvable id. -/
def mkEvmPoolRow (now : ℚ) (p : PoolDict) (pid : String) : EvmPoolRow :=
  { pool_id := pid
    protocol := pyOrStr p.protocol p.project
    name := pyOrStr p.name (pyOrStr p.poolMeta p.symbol)
    symbol := p.symbol
    contract_address := evmPoolContractAddress p
    accepts_usdc := (p.accepts_usdc.getD false)
    ltv := p.ltv
    liquidation_threshold := p.liquidation_threshold
    liquidation_bonus := p.liquidation_bonus
    reserve_factor := p.reserve_factor
    decimals := p.decimals
    source := evmPoolSource p
    created_at := now
    updated_at := now }

/-- `build_evm_pool_rows(pools)`: skip non-dicts and items without a truthy
`pool`/`pool_id`, and build one entity row per remaining item. -/
def build_evm_pool_rows (now : ℚ) (pools : List RawItem) : List EvmPoolRow :=
  pools.filterMap fun item =>
    match item with
    | .nonDict => Option.none
    | .dict p =>
      match poolIdOf p with
      | Option.none => Option.none
      | some pid => some (mkEvmPoolRow now p pid)

/-- A row of the `evm_pool_metrics` time-series table, as built by
`build_evm_pool_metric_rows`. -/
structure EvmPoolMetricRow where
  timestampz : ℚ
  pool_id : String
  tvl_usd : Option ℚ
  apy_base : Option ℚ
  apy_reward : Option ℚ
  apy_total : Option ℚ
  total_debt_usd : Option ℚ
  utilization_rate : Option ℚ
  apy_borrow_variable : Option ℚ
  apy_borrow_stable : Option ℚ
  created_at : ℚ
  updated_at : ℚ
deriving DecidableEq, Repr

/-- The metric row built for one raw pool dict that has a resolvable id:
`ts_val = p.get("timestamp"); timestampz = _timestamp_to_datetime_utc(ts_val)
if ts_val else now` (a falsy — absent or zero — timestamp uses `now`). -/
def mkEvmPoolMetricRow (now : ℚ) (p : PoolDict) (pid : String) : EvmPoolMetricRow :=
  { timestampz :=
      match p.timestamp with
      | some q => if q ≠ 0 then timestamp_to_datetime_utc now (.num q) else now
      | Option.none => now
    pool_id := pid
    tvl_usd := orIfNone p.tvl_usd p.tvlUsd
    apy_base := orIfNone p.apy_base p.apyBase
    apy_reward := orIfNone p.apy_reward p.apyReward
    apy_total := orIfNone p.apy_total p.apy
    total_debt_usd := p.total_debt_usd
    utilization_rate := p.utilization_rate
    apy_borrow_variable := p.apy_borrow_variable
    apy_borrow_stable := p.apy_borrow_stable
    created_at := now
    updated_at := now }

/-- `build_evm_pool_metric_rows(pools)`: the same skip conditions as
`build_evm_pool_rows`, one metric row per remaining item. -/
def build_evm_pool_metric_rows (now : ℚ) (pools : List RawItem) : List EvmPoolMetricRow :=
  pools.filterMap fun item =>
    match item with
    | .nonDict => Option.none
    | .dict p =>
      match poolIdOf p with
      | Option.none => Option.none
      | some pid => some (mkEvmPoolMetricRow now p pid)

/-- The batched-write counter of `persist_evm_pools`: rows are written in
chunks of `BATCH = 1000` and the per-chunk lengths are summed. -/
def batchedWritten {α : Type} : List α → ℕ
  | [] => 0
  | x :: xs => ((x :: xs).take 1000).length + batchedWritten ((x :: xs).drop 1000)
  termination_by l => l.length
  decreasing_by
    simp [List.length_drop]
    omega

/-- `persist_evm_pools(pools)` return value `(pool_count, metric_count)`:
`(0, 0)` when there are no entity rows, otherwise the summed chunk lengths of
the two batched upsert loops. -/
def persist_evm_pools_counts (now : ℚ) (pools : List RawItem) : ℕ × ℕ :=
  let pool_rows := build_evm_pool_rows now pools
  let metric_rows := build_evm_pool_metric_rows now pools
  if pool_rows = [] then (0, 0)
  else (batchedWritten pool_rows, batchedWritten metric_rows)

/-! ## Identifier-keyed merge of `sync_evm_pools_flow` -/

/-- Python dict assignment `by_id[k] = p`: replace in place if `k` is present
(insertion order is preserved), else append. -/
def dictInsert (m : List (String × PoolDict)) (k : String) (p : PoolDict) :
    List (String × PoolDict) :=
  match m with
  | [] => [(k, p)]
  | (k', p') :: rest =>
    if k' = k then (k', p) :: rest else (k', p') :: dictInsert rest k p

/-- `if "pool" not in p: p["pool"] = pid_str` — fill the `pool` key with the
resolved identifier when that key is absent. -/
def fillPool (p : PoolDict) (k : String) : PoolDict :=
  match p.pool with
  | Option.none => { p with pool := some k }
  | some _ => p

/-- One iteration of the merge loop: resolve the identifier, skip items with a
falsy identifier, normalize the `pool` key, store into the dict. -/
def mergeStep (m : List (String × PoolDict)) (p : PoolDict) : List (String × PoolDict) :=
  match poolIdOf p with
  | Option.none => m
  | some k => dictInsert m k (fillPool p k)

/-- The `by_id` dict after the merge loop of `sync_evm_pools_flow` has
consumed the concatenated per-source pool lists. -/
def merge_by_pool_id (l : List PoolDict) : List (String × PoolDict) :=
  l.foldl mergeStep []

/-- Dictionary lookup on the association-list model. -/
def assocLookup (m : List (String × PoolDict)) (k : String) : Option PoolDict :=
  (m.find? (fun e => e.1 == k)).map Prod.snd

/-- The last element of `l` whose resolved identifier is `k` (specification
helper: the row that "wins" for `k` under last-write semantics). -/
def lastMatch (k : String) : List PoolDict → Option PoolDict
  | [] => Option.none
  | p :: rest =>
    match lastMatch k rest with
    | some q => some q
    | Option.none => if poolIdOf p == some k then some p else Option.none

/-! ## Entity upserts (`upsert_vault_rows`, `persist_evm_pools`)

The entity tables are modelled as lists of rows; `INSERT ... ON CONFLICT
(identifier) DO UPDATE SET ...` updates the matching row in place (applying
exactly the `set_` column assignments) or appends a fresh row. -/

/-- A row of the `vaults` entity table (the columns touched by
`upsert_vault_rows`). -/
structure VaultRow where
  vault_address : String
  name : Option String
  leader_address : Option String
  description : Option String
  tvl_usd : Option ℚ
  is_closed : Bool
  relationship_type : Option String
  vault_create_time : Option ℚ
  created_at : ℚ
  updated_at : ℚ
deriving DecidableEq, Repr

/-- The `set_` clause of the vault upsert: on conflict update exactly `name`,
`leader_address`, `is_closed`, `description`, `tvl_usd`, `relationship_type`,
`vault_create_time` and `updated_at` from the excluded (incoming) row. -/
def vaultOnConflictUpdate (old new : VaultRow) : VaultRow :=
  { old with
    name := new.name
    leader_address := new.leader_address
    is_closed := new.is_closed
    description := new.description
    tvl_usd := new.tvl_usd
    relationship_type := new.relationship_type
    vault_create_time := new.vault_create_time
    updated_at := new.updated_at }

/-- Upsert one vault row: conflict key `vault_address`. -/
def upsertVaultRow (table : List VaultRow) (new : VaultRow) : List VaultRow :=
  if table.any (fun r => r.vault_address == new.vault_address) then
    table.map (fun r =>
      if r.vault_address == new.vault_address then vaultOnConflictUpdate r new else r)
  else table ++ [new]

/-- `upsert_vault_rows(rows)`: apply the conflict-aware insert row by row. -/
def upsert_vault_rows (table : List VaultRow) (rows : List VaultRow) : List VaultRow :=
  rows.foldl upsertVaultRow table

/-- The `set_` clause of the EVM-pool upsert in `persist_evm_pools`: on
conflict update exactly the mutable display/metadata/risk columns and
`updated_at`; `pool_id` and `created_at` are not assigned. -/
def evmPoolOnConflictUpdate (old new : EvmPoolRow) : EvmPoolRow :=
  { old with
    protocol := new.protocol
    name := new.name
    symbol := new.symbol
    contract_address := new.contract_address
    accepts_usdc := new.accepts_usdc
    ltv := new.ltv
    liquidation_threshold := new.liquidation_threshold
    liquidation_bonus := new.liquidation_bonus
    reserve_factor := new.reserve_factor
    decimals := new.decimals
    source := new.source
    updated_at := new.updated_at }

/-- Upsert one EVM-pool entity row: conflict key `pool_id`. -/
def upsertEvmPoolRow (table : List EvmPoolRow) (new : EvmPoolRow) : List EvmPoolRow :=
  if table.any (fun r => r.pool_id == new.pool_id) then
    table.map (fun r =>
      if r.pool_id == new.pool_id then evmPoolOnConflictUpdate r new else r)
  else table ++ [new]

/-! ## Top-500 materializer (`update_top_500` in upsert_vaults.py) -/

/-- The projection of a `vault_metrics` row read by the Top-500 query. -/
structure VaultMetricKeyRow where
  vault_address : String
  max_distributable_tvl : Option ℚ
  time : ℕ
deriving DecidableEq, Repr

/-- A row of the `top_500_vaults` table. -/
structure Top500Row where
  vault_address : String
  rank : ℕ
  tvl_usd : Option ℚ
  metrics_time : ℕ
  updated_at : ℕ
deriving DecidableEq, Repr

/-- Pick the row with the greatest `time` from `m :: ms` (the `rn = 1` row of
`ROW_NUMBER() OVER (PARTITION BY vault_address ORDER BY time DESC)`; ties keep
the earlier row, a deterministic stand-in for the arbitrary tie-break). -/
def argmaxTime (m : VaultMetricKeyRow) (ms : List VaultMetricKeyRow) : VaultMetricKeyRow :=
  ms.foldl (fun best x => if x.time > best.time then x else best) m

/-- The `latest` CTE filtered to `rn = 1`: one most-recent metric row per
distinct `vault_address`, in first-appearance order of the addresses. -/
def latestPerVault (metrics : List VaultMetricKeyRow) : List VaultMetricKeyRow :=
  ((metrics.map (fun m => m.vault_address)).dedup).filterMap (fun a =>
    match metrics.filter (fun m => m.vault_address == a) with
    | [] => Option.none
    | m :: ms => some (argmaxTime m ms))

/-- `ORDER BY max_distributable_tvl DESC NULLS LAST` as a Boolean
"may-come-before" relation on the ranking metric. -/
def tvlDescNullsLast (x y : Option ℚ) : Bool :=
  match x, y with
  | some a, some b => b ≤ a
  | some _, Option.none => true
  | Option.none, some _ => false
  | Option.none, Option.none => true

/-- The `ORDER BY` key applied to two selected rows. -/
def top500SortLe (x y : VaultMetricKeyRow) : Bool :=
  tvlDescNullsLast x.max_distributable_tvl y.max_distributable_tvl

/-- The result set of the Top-500 query: most-recent row per vault, ordered
by the ranking metric descending with nulls last, `LIMIT 500`. -/
def top500Rows (metrics : List VaultMetricKeyRow) : List VaultMetricKeyRow :=
  ((latestPerVault metrics).mergeSort top500SortLe).take 500

/-- The insert payload: `for i, (vault_address, tvl_usd, metrics_time) in
enumerate(rows, start=1)` with `rank := i`. -/
def top500Payload (metrics : List VaultMetricKeyRow) (now : ℕ) : List Top500Row :=
  (top500Rows metrics).enum.map (fun pr =>
    ⟨pr.2.vault_address, pr.1 + 1, pr.2.max_distributable_tvl, pr.2.time, now⟩)

/-- `update_top_500()`: select the most-recent row per vault, order by the
ranking metric descending with nulls last, keep 500, delete all previously
stored ranked rows (the prior table contents do not appear in the result),
insert the new set with 1-based rank in output order; return
`(new_table, row_count)`. -/
def update_top_500_model (metrics : List VaultMetricKeyRow)
    (top500_before : List Top500Row) (now : ℕ) : List Top500Row × ℕ :=
  (top500Payload metrics now, (top500Rows metrics).length)

/-! ## `HyperliquidClient.fetch_vault_details_batch` (hyperliquid.py) -/

/-- The exception classes distinguished by `_is_retryable_exception`. -/
inductive HLError where
  | timeoutExc
  | transportError
  | httpStatusError (status_code : ℕ)
  | otherError
deriving DecidableEq, Repr

/-- `_is_retryable_exception`: timeouts and transport errors are retryable;
an HTTP status error is retryable iff its code is in
`(408, 425, 429, 500, 502, 503, 504)`; anything else is not. -/
def is_retryable_exception : HLError → Bool
  | .timeoutExc => true
  | .transportError => true
  | .httpStatusError s => [408, 425, 429, 500, 502, 503, 504].contains s
  | .otherError => false

/-- Outcome of one POST-`/info`-and-decode attempt for one address. -/
inductive AttemptOutcome where
  | ok (payload : ℕ)
  | raised (e : HLError)
deriving DecidableEq, Repr

/-- The value stored in the results dict for one address: the decoded payload,
or an `{'error': ...}` record which carries `status_code` exactly when the
final exception was an `HTTPStatusError`. -/
inductive DetailsEntry where
  | payload (v : ℕ)
  | errorWithStatus (status_code : ℕ)
  | errorOnly
deriving DecidableEq, Repr

/-- Build the error record from the last exception (`status_code` is added
only for `HTTPStatusError`). -/
def errEntryOf : HLError → DetailsEntry
  | .httpStatusError s => .errorWithStatus s
  | _ => .errorOnly

/-- The per-address worker loop `for attempt in range(max_retries + 1)`:
success stores the payload; a failure breaks out (and yields the error record
of the last exception) when attempts are exhausted or the exception is not
retryable, and otherwise backs off and retries.  The `fuel = 0` fallback is
the `last_exc is None` "unknown error" branch, unreachable from the entry
point below. -/
def workerGo (att : ℕ → AttemptOutcome) (max_retries : ℕ) : ℕ → ℕ → DetailsEntry
  | 0, _ => .errorOnly
  | fuel + 1, i =>
    match att i with
    | .ok p => .payload p
    | .raised e =>
      if max_retries ≤ i || !is_retryable_exception e then errEntryOf e
      else workerGo att max_retries fuel (i + 1)

/-- One worker run for one address. -/
def fetch_vault_details_worker (att : ℕ → AttemptOutcome) (max_retries : ℕ) :
    DetailsEntry :=
  workerGo att max_retries (max_retries + 1) 0

/-- `fetch_vault_details_batch(addresses, ...)`: one worker per address; every
worker writes exactly one entry for its address into the results dict. -/
def fetch_vault_details_batch (addresses : List String)
    (att : String → ℕ → AttemptOutcome) (max_retries : ℕ) :
    List (String × DetailsEntry) :=
  addresses.map (fun a => (a, fetch_vault_details_worker (att a) max_retries))

/-- Lookup in the batch results. -/
def detailsLookup (m : List (String × DetailsEntry)) (k : String) : Option DetailsEntry :=
  (m.find? (fun e => e.1 == k)).map Prod.snd

/-! ## Concrete fixtures used to instantiate the theorems -/

/-- A generic-aggregator (DeFi Llama) style row for pool `0xabc`. -/
def dlPoolX : PoolDict :=
  { emptyPoolDict with pool := some "0xabc", symbol := some "USDC", tvlUsd := some 100 }

/-- A protocol-adapter (Felix) style row for the same pool `0xabc`,
with differing field values. -/
def felixPoolX : PoolDict :=
  { emptyPoolDict with
      pool_id := some "0xabc"
      symbol := some "feUSDC"
      source := some "felix"
      tvl_usd := some 200 }

/-- A protocol-adapter row for a pool unique to its source. -/
def hbPoolY : PoolDict :=
  { emptyPoolDict with
      pool_id := some "0xdef"
      symbol := some "HYPE"
      source := some "hyperbeat" }

/-- A stored vault entity row. -/
def vaultRowOld : VaultRow :=
  ⟨"0xv1", some "Old name", some "0xlead", Option.none, some 10, false,
   Option.none, Option.none, 1, 1⟩

/-- A re-ingested row for the same vault address with new mutable values. -/
def vaultRowNew : VaultRow :=
  ⟨"0xv1", some "New name", some "0xlead2", some "desc", some 20, true,
   some "normal", some 1700000000, 9, 9⟩

/-- A stored EVM-pool entity row. -/
def evmRowOld : EvmPoolRow :=
  ⟨"0xabc", some "defillama", some "USDC pool", some "USDC", Option.none, true,
   Option.none, Option.none, Option.none, Option.none, Option.none, "defillama", 1, 1⟩

/-- A re-ingested EVM-pool row for the same `pool_id`. -/
def evmRowNew : EvmPoolRow :=
  ⟨"0xabc", some "Felix", some "feUSDC", some "feUSDC", some "0xca", true,
   some 90, some 110, some 0, some 0, some 18, "felix", 9, 9⟩

/-! # Theorems -/

/-! ## Retry wrapper lemmas -/

/-- Shifting a `range` map by one. -/
theorem range_map_shift (f : ℕ → ℕ) (a k : ℕ) :
    (List.range (k + 1)).map (fun j => f (a + j)) =
      f a :: (List.range k).map (fun j => f (a + 1 + j)) := by
  rw [List.range_succ_eq_map, List.map_cons, List.map_map]
  have hf : ((fun j => f (a + j)) ∘ Nat.succ) = fun j => f (a + 1 + j) := by
    funext j
    simp only [Function.comp]
    congr 1
    omega
  rw [hf]
  simp

/-- If attempt `a + k` succeeds and all earlier attempts from `a` on are
rate-limited, the loop returns that value after `k + 1` invocations, having
slept the delays of attempts `a, …, a + k - 1`. -/
theorem retryFrom_success_of (call : ℕ → CallOutcome) (delayOf : ℕ → ℕ) :
    ∀ (fuel a k v : ℕ), k < fuel → call (a + k) = .ok v →
      (∀ j, j < k → ∃ m, call (a + j) = .exn true m) →
      retryFrom call delayOf fuel a =
        ⟨.success v, k + 1, (List.range k).map (fun j => delayOf (a + j))⟩ := by
  intro fuel
  induction fuel with
  | zero => intro a k v hk _ _; omega
  | succ n ih =>
    intro a k v hk hok hrl
    cases k with
    | zero =>
      simp only [Nat.add_zero] at hok
      simp [retryFrom, hok]
    | succ k =>
      obtain ⟨m0, h0⟩ : ∃ m, call a = .exn true m := by
        simpa using hrl 0 (Nat.succ_pos k)
      have hok' : call (a + 1 + k) = .ok v := by
        have : a + 1 + k = a + (k + 1) := by omega
        rw [this]; exact hok
      have hrl' : ∀ j, j < k → ∃ m, call (a + 1 + j) = .exn true m := by
        intro j hj
        have : a + 1 + j = a + (j + 1) := by omega
        rw [this]; exact hrl (j + 1) (by omega)
      have hrec := ih (a + 1) k v (by omega) hok' hrl'
      simp only [retryFrom, h0, hrec, range_map_shift]

/-- If attempt `a + k` raises a non-rate-limit error and all earlier attempts
from `a` on are rate-limited, the loop re-raises that very error after
`k + 1` invocations. -/
theorem retryFrom_reraised_of (call : ℕ → CallOutcome) (delayOf : ℕ → ℕ) :
    ∀ (fuel a k m : ℕ), k < fuel → call (a + k) = .exn false m →
      (∀ j, j < k → ∃ m', call (a + j) = .exn true m') →
      retryFrom call delayOf fuel a =
        ⟨.reraised m, k + 1, (List.range k).map (fun j => delayOf (a + j))⟩ := by
  intro fuel
  induction fuel with
  | zero => intro a k m hk _ _; omega
  | succ n ih =>
    intro a k m hk hraise hrl
    cases k with
    | zero =>
      simp only [Nat.add_zero] at hraise
      simp [retryFrom, hraise]
    | succ k =>
      obtain ⟨m0, h0⟩ : ∃ m', call a = .exn true m' := by
        simpa using hrl 0 (Nat.succ_pos k)
      have hraise' : call (a + 1 + k) = .exn false m := by
        have : a + 1 + k = a + (k + 1) := by omega
        rw [this]; exact hraise
      have hrl' : ∀ j, j < k → ∃ m', call (a + 1 + j) = .exn true m' := by
        intro j hj
        have : a + 1 + j = a + (j + 1) := by omega
        rw [this]; exact hrl (j + 1) (by omega)
      have hrec := ih (a + 1) k m (by omega) hraise' hrl'
      simp only [retryFrom, h0, hrec, range_map_shift]

/-- The sleep list of a retry run is the delays of the leading run of
rate-limited attempts: delay of attempt `a`, then `a + 1`, and so on. -/
theorem retryFrom_sleeps_eq (call : ℕ → CallOutcome) (delayOf : ℕ → ℕ) :
    ∀ (fuel a : ℕ),
      (retryFrom call delayOf fuel a).sleeps =
        (List.range (retryFrom call delayOf fuel a).sleeps.length).map
          (fun j => delayOf (a + j)) := by
  intro fuel
  induction fuel with
  | zero => intro a; rfl
  | succ n ih =>
    intro a
    cases hc : call a with
    | ok v => simp [retryFrom, hc]
    | exn rl m =>
      cases rl with
      | false => simp [retryFrom, hc]
      | true =>
        have hs : (retryFrom call delayOf (n + 1) a).sleeps =
            delayOf a :: (retryFrom call delayOf n (a + 1)).sleeps := by
          simp [retryFrom, hc]
        rw [hs, List.length_cons, range_map_shift]
        exact congrArg (fun l => delayOf a :: l) (ih (a + 1))

/-- The `i`-th sleep performed by the loop (0-based) is the delay of failed
attempt `a + i`. -/
theorem retryFrom_sleeps_get (call : ℕ → CallOutcome) (delayOf : ℕ → ℕ)
    (fuel a i : ℕ) (h : i < (retryFrom call delayOf fuel a).sleeps.length) :
    (retryFrom call delayOf fuel a).sleeps.get ⟨i, h⟩ = delayOf (a + i) := by
  rw [List.get_of_eq (retryFrom_sleeps_eq call delayOf fuel a)]
  simp

/-! ## C2 — retry on rate limits, immediate re-raise otherwise -/

/-- Claim C2: with `max_retries = 5`, a call that is rate-limited on its first
two invocations and succeeds on the third makes the wrapper return the
successful value having invoked the call exactly 3 times; and whenever the
first non-rate-limit error is raised (after any run of rate-limited attempts)
the wrapper re-raises it immediately, with no further invocation — for both
the Felix and the HypurrFi `_call_with_retry`. -/
theorem retry_rate_limit_semantics (call : ℕ → CallOutcome) (v d : ℕ) :
    (∀ m0 m1 : ℕ, call 0 = .exn true m0 → call 1 = .exn true m1 → call 2 = .ok v →
      (felix_call_with_retry call 5 d).outcome = .success v ∧
      (felix_call_with_retry call 5 d).calls = 3 ∧
      (hypurrfi_call_with_retry call 5).outcome = .success v ∧
      (hypurrfi_call_with_retry call 5).calls = 3) ∧
    (∀ k m : ℕ, k < 5 → (∀ j, j < k → ∃ m', call j = .exn true m') →
      call k = .exn false m →
      (felix_call_with_retry call 5 d).outcome = .reraised m ∧
      (felix_call_with_retry call 5 d).calls = k + 1 ∧
      (hypurrfi_call_with_retry call 5).outcome = .reraised m ∧
      (hypurrfi_call_with_retry call 5).calls = k + 1) := by
  constructor
  · intro m0 m1 h0 h1 h2
    have hrl : ∀ j, j < 2 → ∃ m', call (0 + j) = .exn true m' := by
      intro j hj
      interval_cases j
      · exact ⟨m0, by simpa using h0⟩
      · exact ⟨m1, by simpa using h1⟩
    have hf := retryFrom_success_of call (fun attempt => d * (attempt + 1)) 5 0 2 v
      (by omega) (by simpa using h2) hrl
    have hh := retryFrom_success_of call (fun attempt => 2 ^ (attempt + 1)) 5 0 2 v
      (by omega) (by simpa using h2) hrl
    refine ⟨?_, ?_, ?_, ?_⟩ <;>
      simp [felix_call_with_retry, hypurrfi_call_with_retry, hf, hh]
  · intro k m hk hrl hraise
    have hrl' : ∀ j, j < k → ∃ m', call (0 + j) = .exn true m' := by simpa using hrl
    have hf := retryFrom_reraised_of call (fun attempt => d * (attempt + 1)) 5 0 k m
      hk (by simpa using hraise) hrl'
    have hh := retryFrom_reraised_of call (fun attempt => 2 ^ (attempt + 1)) 5 0 k m
      hk (by simpa using hraise) hrl'
    refine ⟨?_, ?_, ?_, ?_⟩ <;>
      simp [felix_call_with_retry, hypurrfi_call_with_retry, hf, hh]

/-- Witness for C2 at a concrete call oracle: rate-limited twice then `ok 42`
gives success with 3 invocations; an immediate non-rate-limit error `9` gives
an immediate re-raise of error `9` with 1 invocation. -/
theorem retry_rate_limit_semantics_witness :
    (felix_call_with_retry (fun n => if n < 2 then .exn true 0 else .ok 42) 5 2).outcome =
        .success 42 ∧
      (felix_call_with_retry (fun n => if n < 2 then .exn true 0 else .ok 42) 5 2).calls =
        3 ∧
      (hypurrfi_call_with_retry (fun _ => .exn false 9) 5).outcome = .reraised 9 ∧
      (hypurrfi_call_with_retry (fun _ => .exn false 9) 5).calls = 1 := by
  have h1 := (retry_rate_limit_semantics (fun n => if n < 2 then .exn true 0 else .ok 42)
    42 2).1 0 0 (by decide) (by decide) (by decide)
  have h2 := (retry_rate_limit_semantics (fun _ => CallOutcome.exn false 9) 42 2).2 0 9
    (by decide) (by intro j hj; omega) (by decide)
  exact ⟨h1.1, h1.2.1, h2.2.2.1, h2.2.2.2⟩

/-! ## C3 — backoff shape

The claim states the delay slept after failed attempt `attempt` (0-based) is
`base * attempt` (linear adapters) or `2 ^ attempt` (exponential adapters).
The code sleeps `initial_delay * (attempt + 1)` (Felix) and
`2 ** (attempt + 1)` (HypurrFi, Hyperbeat): at attempt 0 the wrappers sleep
`2`, not `0` resp. `1`. -/

/-- Counterexample to C3 as stated: under an always-rate-limited call, the
first sleep (following failed attempt number 0) is `2` for both the linear
wrapper (with its default base 2) and the exponential wrappers, whereas the
claimed shapes predict `2 * 0 = 0` and `2 ^ 0 = 1`. -/
theorem backoff_first_delay_counterexample :
    (felix_call_with_retry (fun _ => .exn true 0) 5 2).sleeps.head? = some 2 ∧
    ¬ (2 = 2 * 0) ∧
    (hypurrfi_call_with_retry (fun _ => .exn true 0) 5).sleeps.head? = some 2 ∧
    ¬ ((2 : ℕ) = 2 ^ 0) ∧
    (hyperbeat_call_with_retry (fun _ => .exn true 0) 5).sleeps.head? = some 2 := by
  decide

/-- Claim C3 (amended): the delay before the retry following failed attempt
number `attempt` (0-based) is `base * (attempt + 1)` for the linear Felix
wrapper and `2 ^ (attempt + 1)` for the exponential HypurrFi and Hyperbeat
wrappers — i.e. base times the 1-based attempt number, resp. 2 to the 1-based
attempt number. -/
theorem backoff_delay_shape :
    (∀ (call : ℕ → CallOutcome) (maxR d i : ℕ)
      (h : i < (felix_call_with_retry call maxR d).sleeps.length),
      (felix_call_with_retry call maxR d).sleeps.get ⟨i, h⟩ = d * (i + 1)) ∧
    (∀ (call : ℕ → CallOutcome) (maxR i : ℕ)
      (h : i < (hypurrfi_call_with_retry call maxR).sleeps.length),
      (hypurrfi_call_with_retry call maxR).sleeps.get ⟨i, h⟩ = 2 ^ (i + 1)) ∧
    (∀ (call : ℕ → CallOutcome) (maxR i : ℕ)
      (h : i < (hyperbeat_call_with_retry call maxR).sleeps.length),
      (hyperbeat_call_with_retry call maxR).sleeps.get ⟨i, h⟩ = 2 ^ (i + 1)) := by
  refine ⟨?_, ?_, ?_⟩ <;>
    · intro call maxR
      first
      | (intro d i h
         simpa using retryFrom_sleeps_get call (fun attempt => d * (attempt + 1)) maxR 0 i h)
      | (intro i h
         simpa using retryFrom_sleeps_get call (fun attempt => 2 ^ (attempt + 1)) maxR 0 i h)

/-- Witness for the amended C3: under an always-rate-limited call, the second
sleep (following failed attempt number 1) is `2 * (1 + 1) = 4` for Felix and
`2 ^ (1 + 1) = 4` for HypurrFi. -/
theorem backoff_delay_shape_witness :
    (felix_call_with_retry (fun _ => .exn true 0) 5 2).sleeps.get ⟨1, by decide⟩ = 4 ∧
    (hypurrfi_call_with_retry (fun _ => .exn true 0) 5).sleeps.get ⟨1, by decide⟩ = 4 := by
  constructor
  · have := backoff_delay_shape.1 (fun _ => .exn true 0) 5 2 1 (by decide)
    simpa using this
  · have := backoff_delay_shape.2.1 (fun _ => .exn true 0) 5 1 (by decide)
    simpa using this

/-! ## C4 — packed risk-parameter decoding -/

/-- Claim C4: for every configuration word `c` the decoder returns
`ltv = (c mod 2^16)/100`, `liq_threshold = ((c >> 16) mod 2^16)/100`,
`liq_bonus = ((c >> 32) mod 2^16)/100` and `decimals = (c >> 48) mod 2^8` —
the fixed bit layout [0:16) = LTV·100, [16:32) = threshold·100,
[32:48) = bonus·100, [48:56) = decimals. -/
theorem parse_configuration_bit_layout (c : ℕ) :
    hypurrfi_parse_configuration c =
      (((c % 2 ^ 16 : ℕ) : ℚ) / 100,
       ((c / 2 ^ 16 % 2 ^ 16 : ℕ) : ℚ) / 100,
       ((c / 2 ^ 32 % 2 ^ 16 : ℕ) : ℚ) / 100,
       c / 2 ^ 48 % 2 ^ 8) := by
  have h16 : (0xFFFF : ℕ) = 2 ^ 16 - 1 := by norm_num
  have h8 : (0xFF : ℕ) = 2 ^ 8 - 1 := by norm_num
  simp only [hypurrfi_parse_configuration, h16, h8, Nat.and_pow_two_sub_one_eq_mod,
    Nat.shiftRight_eq_div_pow]

/-! ## C5 — timestamp disambiguation heuristic -/

/-- Claim C5: the converter returns `now` for `None` and non-numeric inputs
(never a null instant), divides by 1000 exactly when the numeric value
exceeds `1e12` (milliseconds) and keeps it otherwise (seconds); in
particular `1_700_000_000` and `1_700_000_000_000` map to the same instant
(hence the same calendar day). -/
theorem timestamp_heuristic :
    (∀ now : ℚ, timestamp_to_datetime_utc now TsValue.noneVal = now) ∧
    (∀ now : ℚ, timestamp_to_datetime_utc now TsValue.nonNumeric = now) ∧
    (∀ (now q : ℚ), q > 10 ^ 12 →
      timestamp_to_datetime_utc now (TsValue.num q) = q / 1000) ∧
    (∀ (now q : ℚ), ¬ q > 10 ^ 12 →
      timestamp_to_datetime_utc now (TsValue.num q) = q) ∧
    (∀ now : ℚ, timestamp_to_datetime_utc now (TsValue.num 1700000000) =
      timestamp_to_datetime_utc now (TsValue.num 1700000000000)) := by
  refine ⟨fun now => rfl, fun now => rfl, ?_, ?_, ?_⟩
  · intro now q h
    simp [timestamp_to_datetime_utc, h]
  · intro now q h
    simp [timestamp_to_datetime_utc, h]
  · intro now
    norm_num [timestamp_to_datetime_utc]

/-- Witness for C5: both sample values yield the instant `1_700_000_000 s`. -/
theorem timestamp_heuristic_witness :
    timestamp_to_datetime_utc 0 (TsValue.num 1700000000000) = 1700000000 ∧
    timestamp_to_datetime_utc 0 (TsValue.num 1700000000) = 1700000000 := by
  constructor
  · rw [timestamp_heuristic.2.2.1 0 1700000000000 (by norm_num)]
    norm_num
  · exact timestamp_heuristic.2.2.2.1 0 1700000000 (by norm_num)

/-! ## C6 — max drawdown -/

/-- Each scan step can only lower the running minimum drawdown. -/
theorem mddStep_snd_le (st : ℚ × ℚ) (v : ℚ) : (mddStep st v).2 ≤ st.2 := by
  unfold mddStep
  dsimp only
  split_ifs <;> dsimp only <;>
    first
    | exact le_refl _
    | exact le_of_lt (by assumption)

/-- The scan's running minimum never rises above its initial value. -/
theorem foldl_mddStep_snd_le (l : List ℚ) :
    ∀ st : ℚ × ℚ, (l.foldl mddStep st).2 ≤ st.2 := by
  induction l with
  | nil => intro st; exact le_refl _
  | cons v rest ih =>
    intro st
    exact le_trans (ih (mddStep st v)) (mddStep_snd_le st v)

/-- Claim C6: the max-drawdown computation returns `25.0` on the account-value
history `[100, 120, 90, 110]` and `50.0` on `[0, 10, 5]` (zero peaks are
skipped), and its result is always a non-negative percentage. -/
theorem max_drawdown_examples :
    calculate_max_drawdown [("day", [(1, 100), (2, 120), (3, 90), (4, 110)])] "day" =
        some 25 ∧
    calculate_max_drawdown [("day", [(1, 0), (2, 10), (3, 5)])] "day" = some 50 ∧
    (∀ (pf : List (String × List (ℚ × ℚ))) (k : String) (r : ℚ),
      calculate_max_drawdown pf k = some r → 0 ≤ r) := by
  refine ⟨by norm_num [calculate_max_drawdown, maxDrawdownOfValues, mddStep],
    by norm_num [calculate_max_drawdown, maxDrawdownOfValues, mddStep], ?_⟩
  intro pf k r h
  unfold calculate_max_drawdown at h
  cases hf : pf.find? (fun pair => pair.1 == k) with
  | none => rw [hf] at h; exact absurd h (by simp)
  | some pair =>
    rw [hf] at h
    dsimp only at h
    cases hv : pair.2.map Prod.snd with
    | nil => rw [hv] at h; exact absurd h (by simp [maxDrawdownOfValues])
    | cons v0 rest =>
      rw [hv] at h
      simp only [maxDrawdownOfValues, Option.some_inj] at h
      have hle : ((v0 :: rest).foldl mddStep (v0, 0)).2 ≤ 0 :=
        foldl_mddStep_snd_le (v0 :: rest) (v0, 0)
      rw [← h]
      have : 0 ≤ -((v0 :: rest).foldl mddStep (v0, 0)).2 := by linarith
      positivity

/-- Witness for C6's non-negativity clause, instantiated via the first
example: the computed drawdown `25` is non-negative. -/
theorem max_drawdown_examples_witness : (0 : ℚ) ≤ 25 :=
  max_drawdown_examples.2.2 [("day", [(1, 100), (2, 120), (3, 90), (4, 110)])] "day" 25
    max_drawdown_examples.1

/-! ## C1 — last-source-wins merge -/

/-- Looking up the key just stored yields the stored value. -/
theorem dictInsert_lookup_self (m : List (String × PoolDict)) (k : String) (p : PoolDict) :
    assocLookup (dictInsert m k p) k = some p := by
  induction m with
  | nil => simp [dictInsert, assocLookup]
  | cons e rest ih =>
    obtain ⟨k', p'⟩ := e
    by_cases hk : k' = k
    · subst hk
      simp [dictInsert, assocLookup]
    · simp only [dictInsert, if_neg hk]
      simpa [assocLookup, List.find?_cons, hk] using ih

/-- Storing under `k` does not change the value looked up under `k₀ ≠ k`. -/
theorem dictInsert_lookup_ne (m : List (String × PoolDict)) (k : String) (p : PoolDict)
    (k₀ : String) (h : k₀ ≠ k) :
    assocLookup (dictInsert m k p) k₀ = assocLookup m k₀ := by
  induction m with
  | nil => simp [dictInsert, assocLookup, Ne.symm h]
  | cons e rest ih =>
    obtain ⟨k', p'⟩ := e
    by_cases hk : k' = k
    · subst hk
      simp [dictInsert, assocLookup, List.find?_cons, Ne.symm h]
    · simp only [dictInsert, if_neg hk]
      by_cases hk0 : k' = k₀
      · subst hk0
        simp [assocLookup, List.find?_cons]
      · simpa [assocLookup, List.find?_cons, hk0] using ih

/-- Keys after a dict store: unchanged if the key was present, else appended. -/
theorem dictInsert_keys (m : List (String × PoolDict)) (k : String) (p : PoolDict) :
    (dictInsert m k p).map Prod.fst =
      if k ∈ m.map Prod.fst then m.map Prod.fst else m.map Prod.fst ++ [k] := by
  induction m with
  | nil => simp [dictInsert]
  | cons e rest ih =>
    obtain ⟨k', p'⟩ := e
    by_cases hk : k' = k
    · subst hk
      simp [dictInsert]
    · simp only [dictInsert, if_neg hk, List.map_cons, ih]
      by_cases hmem : k ∈ rest.map Prod.fst
      · simp [hmem, Ne.symm hk]
      · simp [hmem, Ne.symm hk]

/-- A dict store preserves distinctness of the stored keys. -/
theorem dictInsert_keys_nodup (m : List (String × PoolDict)) (k : String) (p : PoolDict)
    (h : (m.map Prod.fst).Nodup) : ((dictInsert m k p).map Prod.fst).Nodup := by
  rw [dictInsert_keys]
  by_cases hmem : k ∈ m.map Prod.fst
  · simpa [hmem] using h
  · simp only [hmem, if_false]
    simp [List.nodup_append, h, hmem]

/-- A lookup misses exactly when the key is not among the stored keys. -/
theorem assocLookup_eq_none_iff (m : List (String × PoolDict)) (k : String) :
    assocLookup m k = Option.none ↔ k ∉ m.map Prod.fst := by
  induction m with
  | nil => simp [assocLookup]
  | cons e rest ih =>
    obtain ⟨k', p'⟩ := e
    by_cases hk : k' = k
    · subst hk
      simp [assocLookup, List.find?_cons]
    · simpa [assocLookup, List.find?_cons, hk, Ne.symm hk] using ih

/-- `lastMatch` over an append: the right part wins when it matches. -/
theorem lastMatch_append (k : String) (A B : List PoolDict) :
    lastMatch k (A ++ B) =
      match lastMatch k B with
      | some q => some q
      | Option.none => lastMatch k A := by
  induction A with
  | nil =>
    cases hB : lastMatch k B <;> simp [lastMatch, hB]
  | cons p A' ih =>
    simp only [List.cons_append, lastMatch, List.append_eq]
    rw [ih]
    cases lastMatch k B <;> rfl

/-- `lastMatch` misses exactly when no element resolves to the key. -/
theorem lastMatch_eq_none_iff (k : String) (l : List PoolDict) :
    lastMatch k l = Option.none ↔ ∀ p ∈ l, poolIdOf p ≠ some k := by
  induction l with
  | nil => simp [lastMatch]
  | cons p rest ih =>
    constructor
    · intro h x hx
      rcases List.mem_cons.mp hx with rfl | hx'
      · by_contra hid
        cases hrest : lastMatch k rest with
        | some q => simp [lastMatch, hrest] at h
        | none => simp [lastMatch, hrest, hid] at h
      · cases hrest : lastMatch k rest with
        | some q => simp [lastMatch, hrest] at h
        | none => exact (ih.mp hrest) x hx'
    · intro h
      have hrest : lastMatch k rest = Option.none :=
        ih.mpr (fun x hx => h x (List.mem_cons_of_mem p hx))
      have hp : poolIdOf p ≠ some k := h p (List.mem_cons_self p rest)
      simp [lastMatch, hrest, hp]

/-- A `lastMatch` hit is an element of the list resolving to the key. -/
theorem lastMatch_mem (k : String) (l : List PoolDict) (q : PoolDict)
    (h : lastMatch k l = some q) : q ∈ l ∧ poolIdOf q = some k := by
  induction l with
  | nil => exact absurd h (by simp [lastMatch])
  | cons p rest ih =>
    simp only [lastMatch] at h
    cases hrest : lastMatch k rest with
    | some q' =>
      rw [hrest] at h
      dsimp only at h
      injection h with h'
      subst h'
      obtain ⟨hq, hid⟩ := ih hrest
      exact ⟨List.mem_cons_of_mem p hq, hid⟩
    | none =>
      rw [hrest] at h
      dsimp only at h
      by_cases hp : poolIdOf p = some k
      · rw [if_pos (by simpa using hp)] at h
        injection h with h'
        subst h'
        exact ⟨List.mem_cons_self p rest, hp⟩
      · rw [if_neg (by simpa using hp)] at h
        exact absurd h (by simp)

/-- The dict built by the merge loop maps each key to the (normalized) last
row of the input that resolves to it. -/
theorem foldl_mergeStep_lookup (k : String) :
    ∀ (l : List PoolDict) (m : List (String × PoolDict)),
      assocLookup (l.foldl mergeStep m) k =
        match lastMatch k l with
        | some p => some (fillPool p k)
        | Option.none => assocLookup m k := by
  intro l
  induction l with
  | nil => intro m; simp [lastMatch]
  | cons p rest ih =>
    intro m
    rw [List.foldl_cons, ih (mergeStep m p)]
    cases hrest : lastMatch k rest with
    | some q => simp [lastMatch, hrest]
    | none =>
      simp only [lastMatch, hrest]
      cases hp : poolIdOf p with
      | none => simp [mergeStep, hp]
      | some k' =>
        by_cases hk : k' = k
        · subst hk
          simp [mergeStep, hp, dictInsert_lookup_self]
        · have hne : (some k' == some k) = false := by simpa using hk
          simp [mergeStep, hp, hne, dictInsert_lookup_ne _ _ _ _ (Ne.symm hk)]

/-- The merge loop keeps the stored keys distinct. -/
theorem foldl_mergeStep_keys_nodup :
    ∀ (l : List PoolDict) (m : List (String × PoolDict)),
      (m.map Prod.fst).Nodup → (((l.foldl mergeStep m)).map Prod.fst).Nodup := by
  intro l
  induction l with
  | nil => intro m h; exact h
  | cons p rest ih =>
    intro m h
    rw [List.foldl_cons]
    refine ih (mergeStep m p) ?_
    cases hp : poolIdOf p with
    | none => simpa [mergeStep, hp] using h
    | some k =>
      simpa [mergeStep, hp] using dictInsert_keys_nodup m k (fillPool p k) h

/-- Claim C1: merging the concatenated per-source pool lists is
last-source-wins on the shared identifier: the merged dict has pairwise
distinct identifiers; an identifier appears in the output iff some source row
resolves to it; and when source `i` has a row for identifier `k` and no later
source does, the value stored for `k` is (the normalization of) a row of
source `i` resolving to `k`. -/
theorem merge_last_source_wins (srcs : List (List PoolDict)) :
    ((merge_by_pool_id srcs.flatten).map Prod.fst).Nodup ∧
    (∀ k : String,
      (∃ p ∈ srcs.flatten, poolIdOf p = some k) ↔
        k ∈ (merge_by_pool_id srcs.flatten).map Prod.fst) ∧
    (∀ (k : String) (i : ℕ) (hi : i < srcs.length),
      (∃ p ∈ srcs.get ⟨i, hi⟩, poolIdOf p = some k) →
      (∀ s ∈ srcs.drop (i + 1), ∀ p ∈ s, poolIdOf p ≠ some k) →
      ∃ p ∈ srcs.get ⟨i, hi⟩, poolIdOf p = some k ∧
        assocLookup (merge_by_pool_id srcs.flatten) k = some (fillPool p k)) := by
  refine ⟨?_, ?_, ?_⟩
  · exact foldl_mergeStep_keys_nodup srcs.flatten [] (by simp)
  · intro k
    rw [← not_iff_not, ← assocLookup_eq_none_iff]
    unfold merge_by_pool_id
    rw [foldl_mergeStep_lookup k srcs.flatten []]
    cases hlm : lastMatch k srcs.flatten with
    | some q =>
      obtain ⟨hq, hid⟩ := lastMatch_mem k srcs.flatten q hlm
      exact ⟨fun hne => (hne ⟨q, hq, hid⟩).elim, fun h => absurd h (by simp)⟩
    | none =>
      refine ⟨fun _ => rfl, fun _ => ?_⟩
      rintro ⟨p, hp, hid⟩
      exact (lastMatch_eq_none_iff k _).mp hlm p hp hid
  · intro k i hi hex hlater
    have hjoin : srcs.flatten =
        (srcs.take i).flatten ++ (srcs.get ⟨i, hi⟩ :: srcs.drop (i + 1)).flatten := by
      conv =>
        lhs
        rw [← List.take_append_drop i srcs]
      rw [List.flatten_append]
      congr 2
      exact List.drop_eq_get_cons hi
    have hdrop : lastMatch k (srcs.drop (i + 1)).flatten = Option.none := by
      rw [lastMatch_eq_none_iff]
      intro p hp
      obtain ⟨s, hs, hps⟩ := List.mem_flatten.mp hp
      exact hlater s hs p hps
    have hsrc : ∃ q, lastMatch k (srcs.get ⟨i, hi⟩) = some q := by
      cases hq : lastMatch k (srcs.get ⟨i, hi⟩) with
      | some q => exact ⟨q, rfl⟩
      | none =>
        obtain ⟨p, hp, hpid⟩ := hex
        exact absurd hpid ((lastMatch_eq_none_iff k _).mp hq p hp)
    obtain ⟨q, hq⟩ := hsrc
    obtain ⟨hqmem, hqid⟩ := lastMatch_mem k _ q hq
    have hlm : lastMatch k srcs.flatten = some q := by
      rw [hjoin, lastMatch_append]
      have hmid : lastMatch k ((srcs.get ⟨i, hi⟩ :: srcs.drop (i + 1)).flatten) = some q := by
        rw [List.flatten_cons, lastMatch_append, hdrop]
        exact hq
      rw [hmid]
    refine ⟨q, hqmem, hqid, ?_⟩
    unfold merge_by_pool_id
    rw [foldl_mergeStep_lookup k srcs.flatten [], hlm]

/-- Witness for C1: with a generic-aggregator source listing pool `0xabc` and
a protocol source listing `0xabc` (different values) and `0xdef`, the merge
keeps the protocol row's values for `0xabc` and keeps `0xdef`. -/
theorem merge_last_source_wins_witness :
    assocLookup (merge_by_pool_id ([[dlPoolX], [felixPoolX, hbPoolY]]).flatten) "0xabc" =
        some (fillPool felixPoolX "0xabc") ∧
      "0xdef" ∈ (merge_by_pool_id ([[dlPoolX], [felixPoolX, hbPoolY]]).flatten).map Prod.fst := by
  constructor
  · obtain ⟨p, hp, hpid, hlook⟩ :=
      (merge_last_source_wins [[dlPoolX], [felixPoolX, hbPoolY]]).2.2 "0xabc" 1
        (by norm_num)
        ⟨felixPoolX, by simp, by decide⟩
        (by simp)
    have hp' : p = felixPoolX ∨ p = hbPoolY := by simpa using hp
    rcases hp' with rfl | rfl
    · exact hlook
    · exact absurd hpid (by decide)
  · exact ((merge_last_source_wins [[dlPoolX], [felixPoolX, hbPoolY]]).2.1 "0xdef").mp
      ⟨hbPoolY, by simp, by decide⟩

/-! ## C10 — entity and metric builders skip the same items -/

/-- Summing the chunk lengths of the batched write loop gives the row count. -/
theorem batchedWritten_eq_length {α : Type} (l : List α) : batchedWritten l = l.length := by
  have H : ∀ (n : ℕ) (l : List α), l.length ≤ n → batchedWritten l = l.length := by
    intro n
    induction n with
    | zero =>
      intro l hl
      cases l with
      | nil => simp [batchedWritten]
      | cons x xs => simp at hl
    | succ n ih =>
      intro l hl
      cases l with
      | nil => simp [batchedWritten]
      | cons x xs =>
        have hdl : ((x :: xs).drop 1000).length ≤ n := by
          simp only [List.length_drop, List.length_cons]
          simp only [List.length_cons] at hl
          omega
        rw [batchedWritten, ih ((x :: xs).drop 1000) hdl]
        simp only [List.length_take, List.length_drop, List.length_cons]
        omega
  exact H l.length l (le_refl _)

/-- The two builders produce identifier lists that agree position by
position. -/
theorem builders_map_pid_eq (now : ℚ) (pools : List RawItem) :
    (build_evm_pool_rows now pools).map (fun r => r.pool_id) =
      (build_evm_pool_metric_rows now pools).map (fun r => r.pool_id) := by
  induction pools with
  | nil => rfl
  | cons item rest ih =>
    cases item with
    | nonDict =>
      simpa [build_evm_pool_rows, build_evm_pool_metric_rows, List.filterMap_cons] using ih
    | dict p =>
      cases hp : poolIdOf p with
      | none =>
        simpa [build_evm_pool_rows, build_evm_pool_metric_rows, List.filterMap_cons, hp]
          using ih
      | some pid =>
        simpa [build_evm_pool_rows, build_evm_pool_metric_rows, List.filterMap_cons, hp,
          mkEvmPoolRow, mkEvmPoolMetricRow] using ih

/-- Claim C10: `build_evm_pool_rows` and `build_evm_pool_metric_rows` skip
exactly the same raw items, so for every input they produce lists of equal
length with the same `pool_id` at every position, and `persist_evm_pools`
reports equal entity and metric counts. -/
theorem evm_builders_alignment (now : ℚ) (pools : List RawItem) :
    (build_evm_pool_rows now pools).length =
      (build_evm_pool_metric_rows now pools).length ∧
    (∀ (i : ℕ) (h1 : i < (build_evm_pool_rows now pools).length)
      (h2 : i < (build_evm_pool_metric_rows now pools).length),
      ((build_evm_pool_rows now pools).get ⟨i, h1⟩).pool_id =
        ((build_evm_pool_metric_rows now pools).get ⟨i, h2⟩).pool_id) ∧
    (persist_evm_pools_counts now pools).1 = (persist_evm_pools_counts now pools).2 := by
  have hmap := builders_map_pid_eq now pools
  have hlen : (build_evm_pool_rows now pools).length =
      (build_evm_pool_metric_rows now pools).length := by
    have := congrArg List.length hmap
    simpa using this
  refine ⟨hlen, ?_, ?_⟩
  · intro i h1 h2
    have h1' : i < ((build_evm_pool_rows now pools).map (fun r => r.pool_id)).length := by
      simpa using h1
    have h2' : i < ((build_evm_pool_metric_rows now pools).map
        (fun r => r.pool_id)).length := by
      simpa using h2
    have := List.get_of_eq hmap ⟨i, h1'⟩
    simpa using this
  · simp only [persist_evm_pools_counts]
    by_cases hempty : build_evm_pool_rows now pools = []
    · simp [hempty]
    · rw [if_neg hempty]
      simp [batchedWritten_eq_length, hlen]

/-- Witness for C10's positional clause at a concrete input: one kept item,
one non-dict, one dict without identifier. -/
theorem evm_builders_alignment_witness :
    ((build_evm_pool_rows 0
        [.dict { emptyPoolDict with pool := some "p1", symbol := some "ETH" },
         .nonDict, .dict emptyPoolDict]).get ⟨0, by decide⟩).pool_id =
      ((build_evm_pool_metric_rows 0
        [.dict { emptyPoolDict with pool := some "p1", symbol := some "ETH" },
         .nonDict, .dict emptyPoolDict]).get ⟨0, by decide⟩).pool_id :=
  (evm_builders_alignment 0
    [.dict { emptyPoolDict with pool := some "p1", symbol := some "ETH" },
     .nonDict, .dict emptyPoolDict]).2.1 0 (by decide) (by decide)

/-! ## C7 — frame-preserving entity upsert -/

/-- The vault conflict update never touches the identifier or `created_at`,
and takes every mutable column from the incoming row. -/
theorem vaultOnConflictUpdate_frame (old new : VaultRow) :
    (vaultOnConflictUpdate old new).vault_address = old.vault_address ∧
    (vaultOnConflictUpdate old new).created_at = old.created_at ∧
    (vaultOnConflictUpdate old new).name = new.name ∧
    (vaultOnConflictUpdate old new).leader_address = new.leader_address ∧
    (vaultOnConflictUpdate old new).is_closed = new.is_closed ∧
    (vaultOnConflictUpdate old new).description = new.description ∧
    (vaultOnConflictUpdate old new).tvl_usd = new.tvl_usd ∧
    (vaultOnConflictUpdate old new).relationship_type = new.relationship_type ∧
    (vaultOnConflictUpdate old new).vault_create_time = new.vault_create_time ∧
    (vaultOnConflictUpdate old new).updated_at = new.updated_at := by
  refine ⟨rfl, rfl, rfl, rfl, rfl, rfl, rfl, rfl, rfl, rfl⟩

/-- The EVM-pool conflict update never touches the identifier or `created_at`,
and takes every mutable column from the incoming row. -/
theorem evmPoolOnConflictUpdate_frame (old new : EvmPoolRow) :
    (evmPoolOnConflictUpdate old new).pool_id = old.pool_id ∧
    (evmPoolOnConflictUpdate old new).created_at = old.created_at ∧
    (evmPoolOnConflictUpdate old new).protocol = new.protocol ∧
    (evmPoolOnConflictUpdate old new).name = new.name ∧
    (evmPoolOnConflictUpdate old new).symbol = new.symbol ∧
    (evmPoolOnConflictUpdate old new).contract_address = new.contract_address ∧
    (evmPoolOnConflictUpdate old new).accepts_usdc = new.accepts_usdc ∧
    (evmPoolOnConflictUpdate old new).ltv = new.ltv ∧
    (evmPoolOnConflictUpdate old new).liquidation_threshold = new.liquidation_threshold ∧
    (evmPoolOnConflictUpdate old new).liquidation_bonus = new.liquidation_bonus ∧
    (evmPoolOnConflictUpdate old new).reserve_factor = new.reserve_factor ∧
    (evmPoolOnConflictUpdate old new).decimals = new.decimals ∧
    (evmPoolOnConflictUpdate old new).source = new.source ∧
    (evmPoolOnConflictUpdate old new).updated_at = new.updated_at := by
  refine ⟨rfl, rfl, rfl, rfl, rfl, rfl, rfl, rfl, rfl, rfl, rfl, rfl, rfl, rfl⟩

/-- Upserting a vault row whose address already exists updates in place. -/
theorem upsertVaultRow_existing (table : List VaultRow) (new : VaultRow)
    (h : ∃ r ∈ table, r.vault_address = new.vault_address) :
    upsertVaultRow table new =
      table.map (fun r =>
        if r.vault_address == new.vault_address then vaultOnConflictUpdate r new else r) := by
  obtain ⟨r, hr, haddr⟩ := h
  unfold upsertVaultRow
  rw [if_pos]
  exact List.any_eq_true.mpr ⟨r, hr, by simp [haddr]⟩

/-- The vault upsert never changes how many rows carry any given address. -/
theorem upsertVaultRow_count_existing (table : List VaultRow) (new : VaultRow)
    (h : ∃ r ∈ table, r.vault_address = new.vault_address) (a : String) :
    (upsertVaultRow table new).countP (fun r => r.vault_address == a) =
      table.countP (fun r => r.vault_address == a) := by
  rw [upsertVaultRow_existing table new h, List.countP_map]
  refine List.countP_congr ?_
  intro r _
  by_cases hr : r.vault_address == new.vault_address
  · simp only [Function.comp, hr, if_true]
    have : (vaultOnConflictUpdate r new).vault_address = r.vault_address := rfl
    simp [this]
  · simp [Function.comp, hr]

/-- Upserting an EVM-pool row whose id already exists updates in place. -/
theorem upsertEvmPoolRow_existing (table : List EvmPoolRow) (new : EvmPoolRow)
    (h : ∃ r ∈ table, r.pool_id = new.pool_id) :
    upsertEvmPoolRow table new =
      table.map (fun r =>
        if r.pool_id == new.pool_id then evmPoolOnConflictUpdate r new else r) := by
  obtain ⟨r, hr, hid⟩ := h
  unfold upsertEvmPoolRow
  rw [if_pos]
  exact List.any_eq_true.mpr ⟨r, hr, by simp [hid]⟩

/-- The EVM-pool upsert never changes how many rows carry any given id. -/
theorem upsertEvmPoolRow_count_existing (table : List EvmPoolRow) (new : EvmPoolRow)
    (h : ∃ r ∈ table, r.pool_id = new.pool_id) (a : String) :
    (upsertEvmPoolRow table new).countP (fun r => r.pool_id == a) =
      table.countP (fun r => r.pool_id == a) := by
  rw [upsertEvmPoolRow_existing table new h, List.countP_map]
  refine List.countP_congr ?_
  intro r _
  by_cases hr : r.pool_id == new.pool_id
  · simp only [Function.comp, hr, if_true]
    have : (evmPoolOnConflictUpdate r new).pool_id = r.pool_id := rfl
    simp [this]
  · simp [Function.comp, hr]

/-- The addresses after a vault upsert: unchanged on conflict, the new
address appended otherwise. -/
theorem upsertVaultRow_keys (table : List VaultRow) (new : VaultRow) :
    (upsertVaultRow table new).map (fun r => r.vault_address) =
      if table.any (fun r => r.vault_address == new.vault_address) then
        table.map (fun r => r.vault_address)
      else table.map (fun r => r.vault_address) ++ [new.vault_address] := by
  unfold upsertVaultRow
  by_cases hany : table.any (fun r => r.vault_address == new.vault_address)
  · rw [if_pos hany, if_pos hany, List.map_map]
    refine List.map_congr_left ?_
    intro r _
    by_cases hr : r.vault_address == new.vault_address
    · simp only [Function.comp, hr, if_true]
      rfl
    · simp [Function.comp, hr]
  · rw [if_neg hany, if_neg hany]
    simp

/-- Folding vault upserts preserves distinctness of addresses: re-ingestion
never gives an identifier a second row. -/
theorem upsert_vault_rows_nodup (rows : List VaultRow) :
    ∀ table : List VaultRow,
      (table.map (fun r => r.vault_address)).Nodup →
      ((upsert_vault_rows table rows).map (fun r => r.vault_address)).Nodup := by
  induction rows with
  | nil => intro table h; exact h
  | cons new rest ih =>
    intro table h
    unfold upsert_vault_rows
    rw [List.foldl_cons]
    refine ih (upsertVaultRow table new) ?_
    rw [upsertVaultRow_keys]
    by_cases hany : table.any (fun r => r.vault_address == new.vault_address)
    · simpa [hany] using h
    · rw [if_neg hany]
      have hnot : new.vault_address ∉ table.map (fun r => r.vault_address) := by
        intro hmem
        obtain ⟨r, hr, haddr⟩ := List.mem_map.mp hmem
        exact hany (List.any_eq_true.mpr ⟨r, hr, by simp [haddr]⟩)
      simp [List.nodup_append, h, hnot]

/-- Claim C7: entity upsert is frame-preserving on identity columns: a row
whose identifier already exists is updated in place — only the mutable
columns and `updated_at` change, `created_at` and the identifier survive —
and no identifier ever acquires a second row; for both the vault and the
EVM-pool entity upserts. -/
theorem entity_upsert_frame :
    (∀ (table : List VaultRow) (new : VaultRow),
      (∃ r ∈ table, r.vault_address = new.vault_address) →
        upsertVaultRow table new =
          table.map (fun r =>
            if r.vault_address == new.vault_address then
              vaultOnConflictUpdate r new
            else r) ∧
        (∀ a : String,
          (upsertVaultRow table new).countP (fun r => r.vault_address == a) =
            table.countP (fun r => r.vault_address == a))) ∧
    (∀ old new : VaultRow,
      (vaultOnConflictUpdate old new).vault_address = old.vault_address ∧
      (vaultOnConflictUpdate old new).created_at = old.created_at ∧
      (vaultOnConflictUpdate old new).name = new.name ∧
      (vaultOnConflictUpdate old new).updated_at = new.updated_at) ∧
    (∀ (rows table : List VaultRow),
      (table.map (fun r => r.vault_address)).Nodup →
      ((upsert_vault_rows table rows).map (fun r => r.vault_address)).Nodup) ∧
    (∀ (table : List EvmPoolRow) (new : EvmPoolRow),
      (∃ r ∈ table, r.pool_id = new.pool_id) →
        upsertEvmPoolRow table new =
          table.map (fun r =>
            if r.pool_id == new.pool_id then evmPoolOnConflictUpdate r new else r) ∧
        (∀ a : String,
          (upsertEvmPoolRow table new).countP (fun r => r.pool_id == a) =
            table.countP (fun r => r.pool_id == a))) ∧
    (∀ old new : EvmPoolRow,
      (evmPoolOnConflictUpdate old new).pool_id = old.pool_id ∧
      (evmPoolOnConflictUpdate old new).created_at = old.created_at ∧
      (evmPoolOnConflictUpdate old new).source = new.source ∧
      (evmPoolOnConflictUpdate old new).updated_at = new.updated_at) := by
  refine ⟨?_, ?_, ?_, ?_, ?_⟩
  · intro table new h
    exact ⟨upsertVaultRow_existing table new h,
      upsertVaultRow_count_existing table new h⟩
  · intro old new
    exact ⟨rfl, rfl, rfl, rfl⟩
  · intro rows table h
    exact upsert_vault_rows_nodup rows table h
  · intro table new h
    exact ⟨upsertEvmPoolRow_existing table new h,
      upsertEvmPoolRow_count_existing table new h⟩
  · intro old new
    exact ⟨rfl, rfl, rfl, rfl⟩

/-- Witness for C7: re-ingesting `vaultRowNew` over a table holding
`vaultRowOld` (same address) updates in place and keeps the address count at
one; the update keeps `created_at` and takes the new name. -/
theorem entity_upsert_frame_witness :
    upsertVaultRow [vaultRowOld] vaultRowNew =
        [vaultOnConflictUpdate vaultRowOld vaultRowNew] ∧
      (upsertVaultRow [vaultRowOld] vaultRowNew).countP
        (fun r => r.vault_address == "0xv1") = 1 ∧
      (vaultOnConflictUpdate vaultRowOld vaultRowNew).created_at =
        vaultRowOld.created_at ∧
      upsertEvmPoolRow [evmRowOld] evmRowNew =
        [evmPoolOnConflictUpdate evmRowOld evmRowNew] := by
  have hv := entity_upsert_frame.1 [vaultRowOld] vaultRowNew
    ⟨vaultRowOld, by simp, by decide⟩
  have he := entity_upsert_frame.2.2.2.1 [evmRowOld] evmRowNew
    ⟨evmRowOld, by simp, by decide⟩
  refine ⟨?_, ?_, (entity_upsert_frame.2.1 vaultRowOld vaultRowNew).2.1, ?_⟩
  · rw [hv.1]
    simp [vaultRowOld, vaultRowNew]
  · rw [hv.2 "0xv1"]
    decide
  · rw [he.1]
    simp [evmRowOld, evmRowNew]

/-! ## C8 — Top-500 materializer -/

/-- Unfolding the scan of `argmaxTime` by one element. -/
theorem argmaxTime_cons (m x : VaultMetricKeyRow) (ms : List VaultMetricKeyRow) :
    argmaxTime m (x :: ms) = argmaxTime (if x.time > m.time then x else m) ms := rfl

/-- The selected row is one of the candidates. -/
theorem argmaxTime_mem : ∀ (ms : List VaultMetricKeyRow) (m : VaultMetricKeyRow),
    argmaxTime m ms ∈ m :: ms := by
  intro ms
  induction ms with
  | nil => intro m; simp [argmaxTime]
  | cons x ms ih =>
    intro m
    rw [argmaxTime_cons]
    rcases List.mem_cons.mp (ih (if x.time > m.time then x else m)) with he | hm
    · by_cases hx : x.time > m.time
      · rw [he, if_pos hx]
        exact List.mem_cons_of_mem m (List.mem_cons_self x ms)
      · rw [he, if_neg hx]
        exact List.mem_cons_self m _
    · exact List.mem_cons_of_mem m (List.mem_cons_of_mem x hm)

/-- The selected row has the greatest `time` among the candidates. -/
theorem argmaxTime_le : ∀ (ms : List VaultMetricKeyRow) (m x : VaultMetricKeyRow),
    x ∈ m :: ms → x.time ≤ (argmaxTime m ms).time := by
  intro ms
  induction ms with
  | nil =>
    intro m x hx
    rcases List.mem_cons.mp hx with rfl | h
    · exact le_refl _
    · simp at h
  | cons y ms ih =>
    intro m x hx
    rw [argmaxTime_cons]
    have hm' : m.time ≤ (if y.time > m.time then y else m).time := by
      split_ifs with h
      · exact le_of_lt h
      · exact le_refl _
    have hy' : y.time ≤ (if y.time > m.time then y else m).time := by
      split_ifs with h
      · exact le_refl _
      · exact le_of_not_lt h
    rcases List.mem_cons.mp hx with rfl | hx'
    · exact le_trans hm' (ih _ _ (List.mem_cons_self _ _))
    · rcases List.mem_cons.mp hx' with rfl | hx''
      · exact le_trans hy' (ih _ _ (List.mem_cons_self _ _))
      · exact ih _ x (List.mem_cons_of_mem _ hx'')

/-- The per-vault selection lists exactly the distinct addresses, in
first-appearance order. -/
theorem latestPerVault_addrs (metrics : List VaultMetricKeyRow) :
    (latestPerVault metrics).map (fun r => r.vault_address) =
      (metrics.map (fun m => m.vault_address)).dedup := by
  unfold latestPerVault
  have H : ∀ D : List String,
      (∀ a ∈ D, a ∈ metrics.map (fun m => m.vault_address)) →
      ((D.filterMap (fun a =>
        match metrics.filter (fun m => m.vault_address == a) with
        | [] => Option.none
        | m :: ms => some (argmaxTime m ms))).map (fun r => r.vault_address)) = D := by
    intro D
    induction D with
    | nil => intro _; rfl
    | cons a D' ih =>
      intro hD
      have ha : a ∈ metrics.map (fun m => m.vault_address) :=
        hD a (List.mem_cons_self _ _)
      obtain ⟨m0, hm0, hm0a⟩ := List.mem_map.mp ha
      have hfil : m0 ∈ metrics.filter (fun m => m.vault_address == a) :=
        List.mem_filter.mpr ⟨hm0, by simp [hm0a]⟩
      cases hf : metrics.filter (fun m => m.vault_address == a) with
      | nil => rw [hf] at hfil; simp at hfil
      | cons m ms =>
        have haddr : (argmaxTime m ms).vault_address = a := by
          have hmem := argmaxTime_mem ms m
          rw [← hf] at hmem
          simpa using (List.mem_filter.mp hmem).2
        rw [List.filterMap_cons, hf]
        dsimp only
        rw [List.map_cons, haddr, ih (fun b hb => hD b (List.mem_cons_of_mem a hb))]
  rw [H]
  intro a ha
  exact List.mem_dedup.mp ha

/-- Every selected row is a metric row that is most recent for its address. -/
theorem latestPerVault_latest (metrics : List VaultMetricKeyRow) :
    ∀ r ∈ latestPerVault metrics, r ∈ metrics ∧
      ∀ m' ∈ metrics, m'.vault_address = r.vault_address → m'.time ≤ r.time := by
  intro r hr
  unfold latestPerVault at hr
  obtain ⟨a, _, hg⟩ := List.mem_filterMap.mp hr
  cases hf : metrics.filter (fun m => m.vault_address == a) with
  | nil => rw [hf] at hg; simp at hg
  | cons m ms =>
    rw [hf] at hg
    dsimp only at hg
    injection hg with hg'
    subst hg'
    have hmem := argmaxTime_mem ms m
    rw [← hf] at hmem
    have hra : (argmaxTime m ms).vault_address = a := by
      simpa using (List.mem_filter.mp hmem).2
    refine ⟨(List.mem_filter.mp hmem).1, ?_⟩
    intro m' hm' haddr
    have hm'f : m' ∈ metrics.filter (fun x => x.vault_address == a) :=
      List.mem_filter.mpr ⟨hm', by simp [haddr, hra]⟩
    rw [hf] at hm'f
    exact argmaxTime_le ms m m' hm'f

/-- The ranking order is total. -/
theorem tvlDescNullsLast_total (x y : Option ℚ) :
    tvlDescNullsLast x y || tvlDescNullsLast y x := by
  cases x with
  | none => cases y <;> simp [tvlDescNullsLast]
  | some a =>
    cases y with
    | none => simp [tvlDescNullsLast]
    | some b => simpa [tvlDescNullsLast] using le_total b a

/-- The ranking order is transitive. -/
theorem tvlDescNullsLast_trans (x y z : Option ℚ) (h1 : tvlDescNullsLast x y)
    (h2 : tvlDescNullsLast y z) : tvlDescNullsLast x z := by
  cases x <;> cases y <;> cases z <;>
    simp_all [tvlDescNullsLast] <;> exact le_trans h2 h1

/-- The result set is sorted by the ranking metric, descending, nulls last. -/
theorem top500Rows_sorted (metrics : List VaultMetricKeyRow) :
    (top500Rows metrics).Pairwise (fun x y =>
      tvlDescNullsLast x.max_distributable_tvl y.max_distributable_tvl = true) := by
  unfold top500Rows
  refine List.Pairwise.sublist (List.take_sublist 500 _) ?_
  have := @List.sorted_mergeSort VaultMetricKeyRow top500SortLe
    (fun a b c hab hbc => tvlDescNullsLast_trans _ _ _ hab hbc)
    (fun a b => tvlDescNullsLast_total _ _)
    (latestPerVault metrics)
  simpa [top500SortLe] using this

/-- Every result row comes from the per-vault latest selection. -/
theorem top500Rows_subset (metrics : List VaultMetricKeyRow) :
    ∀ r ∈ top500Rows metrics, r ∈ latestPerVault metrics := by
  intro r hr
  unfold top500Rows at hr
  exact (List.mergeSort_perm (latestPerVault metrics) top500SortLe).mem_iff.mp
    ((List.take_sublist 500 _).mem hr)

/-- The payload's addresses are the result rows' addresses, in order. -/
theorem top500Payload_addrs (metrics : List VaultMetricKeyRow) (now : ℕ) :
    (top500Payload metrics now).map (fun r => r.vault_address) =
      (top500Rows metrics).map (fun r => r.vault_address) := by
  unfold top500Payload
  rw [List.map_map]
  have h2 : ((fun r : Top500Row => r.vault_address) ∘
      (fun pr : ℕ × VaultMetricKeyRow =>
        (⟨pr.2.vault_address, pr.1 + 1, pr.2.max_distributable_tvl, pr.2.time, now⟩ :
          Top500Row))) =
      (fun r : VaultMetricKeyRow => r.vault_address) ∘ Prod.snd := rfl
  rw [h2, ← List.map_map, List.enum_eq_enumFrom, List.enumFrom_map_snd]

/-- The payload's rank at position `i` is `i + 1`. -/
theorem top500Payload_rank (metrics : List VaultMetricKeyRow) (now : ℕ) (i : ℕ)
    (h : i < (top500Payload metrics now).length) :
    ((top500Payload metrics now).get ⟨i, h⟩).rank = i + 1 := by
  unfold top500Payload at h ⊢
  rw [List.get_eq_getElem, List.getElem_map]
  simp [List.enum_eq_enumFrom, List.getElem_enumFrom]

/-- The payload size is the number of distinct addresses, capped at 500. -/
theorem top500Payload_length (metrics : List VaultMetricKeyRow) (now : ℕ) :
    (top500Payload metrics now).length = min 500 (latestPerVault metrics).length := by
  simp [top500Payload, top500Rows, List.enum_eq_enumFrom, List.length_take,
    (List.mergeSort_perm (latestPerVault metrics) top500SortLe).length_eq]

/-- Claim C8: the Top-500 materializer selects the most-recent metric row per
identifier, orders descending by the ranking metric with nulls last, keeps at
most 500, fully replaces the previous ranked rows (the result does not depend
on them), assigns 1-based strictly increasing ranks in output order, and
returns the number of rows selected. -/
theorem top500_materializer (metrics : List VaultMetricKeyRow)
    (before before' : List Top500Row) (now : ℕ) :
    update_top_500_model metrics before now = update_top_500_model metrics before' now ∧
    (update_top_500_model metrics before now).2 =
      (update_top_500_model metrics before now).1.length ∧
    (update_top_500_model metrics before now).1.length ≤ 500 ∧
    (∀ (i : ℕ) (h : i < (update_top_500_model metrics before now).1.length),
      ((update_top_500_model metrics before now).1.get ⟨i, h⟩).rank = i + 1) ∧
    ((update_top_500_model metrics before now).1.map
      (fun r => r.vault_address)).Nodup ∧
    List.Pairwise (fun x y => tvlDescNullsLast x.tvl_usd y.tvl_usd = true)
      (update_top_500_model metrics before now).1 ∧
    (∀ r ∈ (update_top_500_model metrics before now).1,
      ∃ m ∈ metrics, m.vault_address = r.vault_address ∧
        m.max_distributable_tvl = r.tvl_usd ∧ m.time = r.metrics_time ∧
        ∀ m' ∈ metrics, m'.vault_address = m.vault_address → m'.time ≤ m.time) ∧
    (∀ a : String, a ∈ metrics.map (fun m => m.vault_address) ↔
      a ∈ (latestPerVault metrics).map (fun m => m.vault_address)) := by
  refine ⟨rfl, ?_, ?_, ?_, ?_, ?_, ?_, ?_⟩
  · show (top500Rows metrics).length = (top500Payload metrics now).length
    simp [top500Payload, List.enum_eq_enumFrom]
  · show (top500Payload metrics now).length ≤ 500
    simp only [top500Payload, top500Rows, List.length_map, List.enum_eq_enumFrom,
      List.enumFrom_length, List.length_take]
    omega
  · intro i h
    exact top500Payload_rank metrics now i h
  · show ((top500Payload metrics now).map (fun r => r.vault_address)).Nodup
    rw [top500Payload_addrs]
    have hnd : (((latestPerVault metrics).mergeSort top500SortLe).map
        (fun r => r.vault_address)).Nodup := by
      refine ((List.mergeSort_perm (latestPerVault metrics) top500SortLe).map
        (fun r => r.vault_address)).symm.nodup ?_
      rw [latestPerVault_addrs]
      exact List.nodup_dedup _
    refine hnd.sublist ?_
    unfold top500Rows
    exact (List.take_sublist 500 _).map _
  · show List.Pairwise (fun x y => tvlDescNullsLast x.tvl_usd y.tvl_usd = true)
      (top500Payload metrics now)
    unfold top500Payload
    rw [List.pairwise_map]
    have hp2 := top500Rows_sorted metrics
    have hp3 : (((top500Rows metrics).enum).map Prod.snd).Pairwise (fun x y =>
        tvlDescNullsLast x.max_distributable_tvl y.max_distributable_tvl = true) := by
      rw [List.enum_eq_enumFrom, List.enumFrom_map_snd]
      exact hp2
    rw [List.pairwise_map] at hp3
    exact hp3
  · intro r hr
    obtain ⟨pr, hpr, hfr⟩ := List.mem_map.mp hr
    have hsnd : pr.2 ∈ ((top500Rows metrics).enum).map Prod.snd :=
      List.mem_map_of_mem Prod.snd hpr
    rw [List.enum_eq_enumFrom, List.enumFrom_map_snd] at hsnd
    have hmemLatest : pr.2 ∈ latestPerVault metrics :=
      top500Rows_subset metrics pr.2 hsnd
    obtain ⟨hm, hmax⟩ := latestPerVault_latest metrics pr.2 hmemLatest
    refine ⟨pr.2, hm, ?_, ?_, ?_, hmax⟩
    · rw [← hfr]
    · rw [← hfr]
    · rw [← hfr]
  · intro a
    rw [latestPerVault_addrs]
    exact List.mem_dedup.symm

/-- Witness for C8 at a concrete metric set: the previous ranked table is
irrelevant and the first rank is 1. -/
theorem top500_materializer_witness :
    update_top_500_model
        [⟨"a", Option.none, 1⟩, ⟨"a", Option.none, 2⟩, ⟨"b", Option.none, 9⟩]
        [⟨"zz", 1, Option.none, 0, 0⟩] 77 =
      update_top_500_model
        [⟨"a", Option.none, 1⟩, ⟨"a", Option.none, 2⟩, ⟨"b", Option.none, 9⟩] [] 77 ∧
    ((update_top_500_model
        [⟨"a", Option.none, 1⟩, ⟨"a", Option.none, 2⟩, ⟨"b", Option.none, 9⟩]
        [⟨"zz", 1, Option.none, 0, 0⟩] 77).1.get
      ⟨0, by
        show 0 < (top500Payload
          [⟨"a", Option.none, 1⟩, ⟨"a", Option.none, 2⟩, ⟨"b", Option.none, 9⟩] 77).length
        rw [top500Payload_length]
        decide⟩).rank = 1 :=
  ⟨(top500_materializer
      [⟨"a", Option.none, 1⟩, ⟨"a", Option.none, 2⟩, ⟨"b", Option.none, 9⟩]
      [⟨"zz", 1, Option.none, 0, 0⟩] [] 77).1,
   (top500_materializer
      [⟨"a", Option.none, 1⟩, ⟨"a", Option.none, 2⟩, ⟨"b", Option.none, 9⟩]
      [⟨"zz", 1, Option.none, 0, 0⟩] [] 77).2.2.2.1 0 (by
        show 0 < (top500Payload
          [⟨"a", Option.none, 1⟩, ⟨"a", Option.none, 2⟩, ⟨"b", Option.none, 9⟩] 77).length
        rw [top500Payload_length]
        decide)⟩

/-! ## C9 — total batch vault-details fetcher -/

/-- If attempt `k` succeeds and attempts `i, …, k - 1` raise retryable errors,
the worker loop stores the decoded payload. -/
theorem workerGo_success (att : ℕ → AttemptOutcome) (maxR : ℕ) :
    ∀ (fuel i k : ℕ) (p : ℕ), i + fuel = maxR + 1 → i ≤ k → k ≤ maxR →
      att k = .ok p →
      (∀ j, i ≤ j → j < k → ∃ e, att j = .raised e ∧ is_retryable_exception e = true) →
      workerGo att maxR fuel i = .payload p := by
  intro fuel
  induction fuel with
  | zero => intro i k p hfuel hik hk _ _; omega
  | succ n ih =>
    intro i k p hfuel hik hk hok hrl
    by_cases hki : k = i
    · subst hki
      simp [workerGo, hok]
    · have hlt : i < k := lt_of_le_of_ne hik (fun h => hki h.symm)
      obtain ⟨e, he, hre⟩ := hrl i (le_refl i) hlt
      have hguard : (decide (maxR ≤ i) || !is_retryable_exception e) = false := by
        simp [hre]
        omega
      simp only [workerGo, he]
      rw [if_neg (by simp_all)]
      exact ih (i + 1) k p (by omega) (by omega) hk hok
        (fun j hj1 hj2 => hrl j (by omega) hj2)

/-- If every attempt `i, …, maxR` raises a retryable error, the loop breaks at
attempt `maxR` and stores the error record of that last exception. -/
theorem workerGo_exhausted (att : ℕ → AttemptOutcome) (maxR : ℕ) :
    ∀ (fuel i : ℕ), i + fuel = maxR + 1 → 0 < fuel →
      (∀ j, i ≤ j → j ≤ maxR → ∃ e, att j = .raised e ∧ is_retryable_exception e = true) →
      ∃ e, att maxR = .raised e ∧ workerGo att maxR fuel i = errEntryOf e := by
  intro fuel
  induction fuel with
  | zero => intro i hfuel hpos; omega
  | succ n ih =>
    intro i hfuel _ hrl
    have hi : i ≤ maxR := by omega
    obtain ⟨e, he, hre⟩ := hrl i (le_refl i) hi
    by_cases hmax : i = maxR
    · subst hmax
      refine ⟨e, he, ?_⟩
      simp [workerGo, he]
    · have hlt : i < maxR := lt_of_le_of_ne hi hmax
      have := ih (i + 1) (by omega) (by omega)
        (fun j hj1 hj2 => hrl j (by omega) hj2)
      obtain ⟨e', he', hgo⟩ := this
      refine ⟨e', he', ?_⟩
      simp only [workerGo, he]
      rw [if_neg (by simp [hre]; omega)]
      exact hgo

/-- If attempt `k` raises a non-retryable error and attempts `i, …, k - 1`
raise retryable ones, the loop breaks immediately at `k` and stores the error
record of that exception. -/
theorem workerGo_nonretry (att : ℕ → AttemptOutcome) (maxR : ℕ) :
    ∀ (fuel i k : ℕ) (e : HLError), i + fuel = maxR + 1 → i ≤ k → k ≤ maxR →
      att k = .raised e → is_retryable_exception e = false →
      (∀ j, i ≤ j → j < k → ∃ e', att j = .raised e' ∧ is_retryable_exception e' = true) →
      workerGo att maxR fuel i = errEntryOf e := by
  intro fuel
  induction fuel with
  | zero => intro i k e hfuel hik hk _ _ _; omega
  | succ n ih =>
    intro i k e hfuel hik hk hraise hre hrl
    by_cases hki : k = i
    · subst hki
      simp [workerGo, hraise, hre]
    · have hlt : i < k := lt_of_le_of_ne hik (fun h => hki h.symm)
      obtain ⟨e', he', hre'⟩ := hrl i (le_refl i) hlt
      simp only [workerGo, he']
      rw [if_neg (by simp [hre']; omega)]
      exact ih (i + 1) k e (by omega) (by omega) hk hraise hre
        (fun j hj1 hj2 => hrl j (by omega) hj2)

/-- The result entries are keyed by the input addresses, in input order. -/
theorem batch_map_fst (addresses : List String) (att : String → ℕ → AttemptOutcome)
    (maxR : ℕ) :
    (fetch_vault_details_batch addresses att maxR).map Prod.fst = addresses := by
  induction addresses with
  | nil => rfl
  | cons b rest ih =>
    simp only [fetch_vault_details_batch, List.map_cons] at ih ⊢
    rw [ih]

/-- Every requested address has its entry in the results. -/
theorem detailsLookup_batch (addresses : List String) (att : String → ℕ → AttemptOutcome)
    (maxR : ℕ) (a : String) (ha : a ∈ addresses) :
    detailsLookup (fetch_vault_details_batch addresses att maxR) a =
      some (fetch_vault_details_worker (att a) maxR) := by
  induction addresses with
  | nil => simp at ha
  | cons b rest ih =>
    by_cases hb : b = a
    · subst hb
      simp [fetch_vault_details_batch, detailsLookup, List.find?_cons]
    · have hba : (b == a) = false := by simpa using hb
      have ha' : a ∈ rest := by
        rcases List.mem_cons.mp ha with rfl | h
        · exact absurd rfl hb
        · exact h
      have := ih ha'
      simp only [fetch_vault_details_batch, List.map_cons, detailsLookup,
        List.find?_cons] at this ⊢
      simpa [hba] using this

/-- Claim C9: the batch fetcher is total over its input: for distinct input
addresses the result has exactly one entry per address, in input order, each
holding that address's worker result; and the worker result is the decoded
payload when some attempt within the retry budget succeeds, or an error
record built from the last exception — which carries the HTTP status code
exactly when that exception was an HTTP status error — when retries are
exhausted or a non-retryable error occurs. -/
theorem batch_fetch_total (addresses : List String)
    (att : String → ℕ → AttemptOutcome) (maxR : ℕ) (hnd : addresses.Nodup) :
    (fetch_vault_details_batch addresses att maxR).length = addresses.length ∧
    (fetch_vault_details_batch addresses att maxR).map Prod.fst = addresses ∧
    (∀ a ∈ addresses,
      ((fetch_vault_details_batch addresses att maxR).map Prod.fst).count a = 1) ∧
    (∀ a ∈ addresses,
      detailsLookup (fetch_vault_details_batch addresses att maxR) a =
        some (fetch_vault_details_worker (att a) maxR)) ∧
    (∀ (f : ℕ → AttemptOutcome) (k p : ℕ), k ≤ maxR → f k = .ok p →
      (∀ j, j < k → ∃ e, f j = .raised e ∧ is_retryable_exception e = true) →
      fetch_vault_details_worker f maxR = .payload p) ∧
    (∀ f : ℕ → AttemptOutcome,
      (∀ j, j ≤ maxR → ∃ e, f j = .raised e ∧ is_retryable_exception e = true) →
      ∃ e, f maxR = .raised e ∧
        fetch_vault_details_worker f maxR = errEntryOf e) ∧
    (∀ (f : ℕ → AttemptOutcome) (k : ℕ) (e : HLError), k ≤ maxR →
      f k = .raised e → is_retryable_exception e = false →
      (∀ j, j < k → ∃ e', f j = .raised e' ∧ is_retryable_exception e' = true) →
      fetch_vault_details_worker f maxR = errEntryOf e) ∧
    (∀ (s : ℕ), errEntryOf (.httpStatusError s) = .errorWithStatus s) ∧
    (errEntryOf .timeoutExc = .errorOnly ∧ errEntryOf .transportError = .errorOnly ∧
      errEntryOf .otherError = .errorOnly) := by
  refine ⟨?_, ?_, ?_, ?_, ?_, ?_, ?_, fun s => rfl, rfl, rfl, rfl⟩
  · simp [fetch_vault_details_batch]
  · exact batch_map_fst addresses att maxR
  · intro a ha
    rw [batch_map_fst]
    exact List.count_eq_one_of_mem hnd ha
  · intro a ha
    exact detailsLookup_batch addresses att maxR a ha
  · intro f k p hk hok hrl
    exact workerGo_success f maxR (maxR + 1) 0 k p (by omega) (by omega) hk hok
      (fun j _ hj2 => hrl j hj2)
  · intro f hrl
    exact workerGo_exhausted f maxR (maxR + 1) 0 (by omega) (by omega)
      (fun j _ hj2 => hrl j hj2)
  · intro f k e hk hraise hre hrl
    exact workerGo_nonretry f maxR (maxR + 1) 0 k e (by omega) (by omega) hk hraise hre
      (fun j _ hj2 => hrl j hj2)

/-- Witness for C9: two addresses, one succeeding on its third attempt, one
hitting a non-retryable 404 — both get exactly one entry, the payload and the
status-carrying error record respectively. -/
theorem batch_fetch_total_witness :
    detailsLookup (fetch_vault_details_batch ["x", "y"]
        (fun a n => if a = "x" then (if n < 2 then .raised .timeoutExc else .ok 7)
          else .raised (.httpStatusError 404)) 3) "x" =
      some (fetch_vault_details_worker
        (fun n => if n < 2 then .raised .timeoutExc else .ok 7) 3) ∧
    fetch_vault_details_worker
        (fun n => if n < 2 then .raised .timeoutExc else .ok 7) 3 = .payload 7 ∧
    fetch_vault_details_worker (fun _ => .raised (.httpStatusError 404)) 3 =
      .errorWithStatus 404 := by
  have hb := batch_fetch_total ["x", "y"]
    (fun a n => if a = "x" then (if n < 2 then .raised .timeoutExc else .ok 7)
      else .raised (.httpStatusError 404)) 3 (by decide)
  refine ⟨?_, ?_, ?_⟩
  · have := hb.2.2.2.1 "x" (by simp)
    simpa using this
  · refine hb.2.2.2.2.1 (fun n => if n < 2 then .raised .timeoutExc else .ok 7) 2 7
      (by omega) (by simp) ?_
    intro j hj
    exact ⟨.timeoutExc, by simp [hj], rfl⟩
  · have h404 : is_retryable_exception (.httpStatusError 404) = false := by decide
    have := hb.2.2.2.2.2.2.1 (fun _ => .raised (.httpStatusError 404)) 0
      (.httpStatusError 404) (by omega) rfl h404 (fun j hj => absurd hj (by omega))
    simpa using this

end TmVov
